import Mathlib

/-!
Verification development for the DenkraumNavigator web application
(`app.py`).  The Python source is shallowly embedded: strings are lists
of characters, the SQLite `files` table is a list of records, SQL
condition assembly and evaluation are explicit, and the filesystem is a
partial map from canonical paths to contents.
-/

namespace Denkraum

/-- Strings from the Python source are modelled as lists of characters. -/
abbrev Str := List Char

/-- ASCII lower-casing, as applied by SQLite's default `LIKE` comparison
(which folds only the ASCII range). -/
def lowerC (c : Char) : Char :=
  if 'A' ≤ c ∧ c ≤ 'Z' then Char.ofNat (c.toNat + 32) else c

/-- Python's `s.startswith(p)`: `p` is a literal leading segment of `s`. -/
def pyStartswith : Str → Str → Bool
  | _, [] => true
  | [], _ :: _ => false
  | c :: s, d :: p => (c == d) && pyStartswith s p

/-- Python's `s.endswith(p)`. -/
def pyEndswith (s p : Str) : Bool :=
  pyStartswith s.reverse p.reverse

/-- Python's substring test `p in s`. -/
def containsSub (s p : Str) : Bool :=
  s.tails.any (fun t => pyStartswith t p)

/-- Case-insensitive (ASCII) substring test: `p` occurs in `s` up to
ASCII case. -/
def containsCI (s p : Str) : Bool :=
  containsSub (s.map lowerC) (p.map lowerC)

/-- SQLite `LIKE` pattern matching: `%` matches any sequence, `_` any
single character, and ordinary characters compare ASCII-case-insensitively
(`case_sensitive_like` is off by default). -/
def likeMatch : Str → Str → Bool
  | [], s => s.isEmpty
  | c :: ps, s =>
    if c = '%' then s.tails.any (fun t => likeMatch ps t)
    else
      match s with
      | [] => false
      | d :: s' => (if c = '_' then true else lowerC c == lowerC d) && likeMatch ps s'

/-- The pattern `f"%{w}%"` built by `search_database` for its `LIKE`
parameters. -/
def likePat (w : Str) : Str := '%' :: (w ++ ['%'])

/-- Unix shell-style matching as used by `glob.glob` on the patterns the
application builds: `*` matches any sequence, `?` any single character;
the application's patterns contain no character classes. -/
def globMatch : Str → Str → Bool
  | [], s => s.isEmpty
  | c :: ps, s =>
    if c = '*' then s.tails.any (fun t => globMatch ps t)
    else
      match s with
      | [] => false
      | d :: s' => (if c = '?' then true else c == d) && globMatch ps s'

/-- A string free of the SQL `LIKE` wildcard characters. -/
def noWild (p : Str) : Bool :=
  p.all (fun c => (c != '%') && (c != '_'))

/-- A string free of the shell glob wildcard characters. -/
def noGlobWild (p : Str) : Bool :=
  p.all (fun c => (c != '*') && (c != '?'))

/-- Splitting a string on a separator character, as Python's
`str.split(sep)` (so the empty string splits into one empty part). -/
def splitOnChar (sep : Char) : Str → List Str
  | [] => [[]]
  | c :: r =>
    if c = sep then [] :: splitOnChar sep r
    else
      match splitOnChar sep r with
      | [] => [[c]]
      | h :: t => (c :: h) :: t

/-- The whitespace characters stripped by Python's `str.strip()` (ASCII
range). -/
def isSpaceChar (c : Char) : Bool :=
  c == ' ' || c == '\t' || c == '\n' || c == '\r' || c == '\x0b' || c == '\x0c'

/-- Python's `str.strip()` on ASCII whitespace. -/
def pyStrip (s : Str) : Str :=
  ((s.dropWhile isSpaceChar).reverse.dropWhile isSpaceChar).reverse

/-- Tail of a Python integer literal body: digits optionally separated by
single underscores. -/
def digitTail : Str → Bool
  | [] => true
  | '_' :: c :: r => c.isDigit && digitTail r
  | ['_'] => false
  | c :: r => c.isDigit && digitTail r

/-- A non-empty digit sequence acceptable to Python's `int()` after sign
removal. -/
def pyDigitsOk : Str → Bool
  | [] => false
  | c :: r => c.isDigit && digitTail r

/-- Numeric value of a digit string (underscore separators ignored). -/
def digitsVal (s : Str) : Int :=
  (s.filter (fun c => c != '_')).foldl (fun a c => a * 10 + ((c.toNat : Int) - 48)) 0

/-- Python's `int(s)` on a decimal string: strip whitespace, optional
sign, digits with optional underscore separators; `none` models the
`ValueError` raised on anything else. -/
def pyInt (s : Str) : Option Int :=
  let t := pyStrip s
  match t with
  | '+' :: r => if pyDigitsOk r then some (digitsVal r) else none
  | '-' :: r => if pyDigitsOk r then some (-(digitsVal r)) else none
  | r => if pyDigitsOk r then some (digitsVal r) else none

/-- One row of the `files` table produced by the indexer (the columns
`search_database` touches; `last_modified` is the stored Unix timestamp
used by the `ORDER BY` clause, `category_year` is a nullable INTEGER
column). -/
structure FileRecord where
  path : Str
  filename : Str
  category_type : Str
  category_year : Option Int
  summary : Str
  keywords : Str
  last_modified : Int
deriving Repr, DecidableEq

/-- The SQL conditions `search_database` can append to its `WHERE`
clause, with the bound parameters it supplies. -/
inductive Cond where
  | filenameLike (pat : Str)
  | yearIn (ys : List Int)
  | typeIn (ts : List Str)
  | kwGroup (kws : List Str)
deriving Repr, DecidableEq

/-- SQLite evaluation of one generated condition against a row.  A NULL
`category_year` never satisfies `category_year IN (...)`; the keyword
group is the conjunction over keywords of
`(keywords LIKE %kw% OR summary LIKE %kw% OR filename LIKE %kw%)`. -/
def evalCond (r : FileRecord) : Cond → Bool
  | .filenameLike pat => likeMatch pat r.filename
  | .yearIn ys =>
    match r.category_year with
    | none => false
    | some y => ys.contains y
  | .typeIn ts => ts.contains r.category_type
  | .kwGroup kws =>
    kws.all (fun kw =>
      likeMatch (likePat kw) r.keywords ||
      likeMatch (likePat kw) r.summary ||
      likeMatch (likePat kw) r.filename)

/-- The `filename LIKE ?` condition: appended exactly when the filename
argument is truthy (`None` and the empty string are both falsy and are
modelled as the empty list). -/
def filenameConds (f : Str) : List Cond :=
  if f.isEmpty then [] else [Cond.filenameLike (likePat f)]

/-- The year conditions: the comprehension `[int(y) for y in years if y]`
keeps the truthy entries; a `ValueError` on any of them abandons the
whole filter (`except ValueError: pass`), and an empty result list adds
no condition. -/
def yearConds (years : List Str) : List Cond :=
  if years.isEmpty then []
  else
    let tr := years.filter (fun y => !y.isEmpty)
    if tr.all (fun y => (pyInt y).isSome) then
      let yi := tr.filterMap pyInt
      if yi.isEmpty then [] else [Cond.yearIn yi]
    else []

/-- The `category_type IN (...)` condition, appended when the list is
non-empty (a lone string argument is wrapped into a singleton list by
the source before this point). -/
def typeConds (ts : List Str) : List Cond :=
  if ts.isEmpty then [] else [Cond.typeIn ts]

/-- Keyword parsing in `search_database`: split on commas, strip each
part, drop the empty ones. -/
def splitKeywords (kws : Str) : List Str :=
  ((splitOnChar ',' kws).map pyStrip).filter (fun w => !w.isEmpty)

/-- The grouped keyword condition, appended when the keywords argument
is truthy and at least one non-empty keyword survives parsing. -/
def keywordConds (kws : Str) : List Cond :=
  if kws.isEmpty then []
  else
    let ks := splitKeywords kws
    if ks.isEmpty then [] else [Cond.kwGroup ks]

/-- All conditions assembled by `search_database`, in source order. -/
def build_conditions (f : Str) (years ts : List Str) (kws : Str) : List Cond :=
  filenameConds f ++ yearConds years ++ typeConds ts ++ keywordConds kws

/-- `ORDER BY last_modified DESC`: a stable descending sort on the
stored modification time. -/
def sqlOrderDesc (rs : List FileRecord) : List FileRecord :=
  rs.insertionSort (fun a b => b.last_modified ≤ a.last_modified)

/-- Execution of the assembled query: rows satisfying every condition,
ordered by modification time descending. -/
def runQuery (db : List FileRecord) (conds : List Cond) : List FileRecord :=
  sqlOrderDesc (db.filter (fun r => conds.all (fun c => evalCond r c)))

/-- `search_database` (`app.py:109-165`): build the condition list and
execute the query only when at least one condition was produced,
returning the empty list otherwise without touching the database. -/
def search_database (db : List FileRecord) (f : Str) (years ts : List Str)
    (kws : Str) : List FileRecord :=
  let conds := build_conditions f years ts kws
  if conds.isEmpty then [] else runQuery db conds

/-- Truthiness of the filename argument. -/
def filenameActive (f : Str) : Bool := !f.isEmpty

/-- The year filter contributes a condition exactly when some truthy
year string is present (given that they all parse). -/
def yearActive (years : List Str) : Bool :=
  !(years.filter (fun y => !y.isEmpty)).isEmpty

/-- The type filter is active when the list is non-empty. -/
def typeActive (ts : List Str) : Bool := !ts.isEmpty

/-- The keyword filter is active when parsing leaves at least one
keyword. -/
def kwActive (kws : Str) : Bool := !(splitKeywords kws).isEmpty

/-- At least one of the four optional filters is active. -/
def anyFilterActive (f : Str) (years ts : List Str) (kws : Str) : Bool :=
  filenameActive f || yearActive years || typeActive ts || kwActive kws

/-- The integer year values contributed by the year filter. -/
def specYearSet (years : List Str) : List Int :=
  (years.filter (fun y => !y.isEmpty)).filterMap pyInt

/-- The conjunction of the active filters, each judged independently on
one record: an inactive filter contributes no constraint. -/
def specMatches (f : Str) (years ts : List Str) (kws : Str)
    (r : FileRecord) : Bool :=
  (if filenameActive f then likeMatch (likePat f) r.filename else true) &&
  (if yearActive years then
      (match r.category_year with
       | none => false
       | some y => (specYearSet years).contains y)
    else true) &&
  (if typeActive ts then ts.contains r.category_type else true) &&
  (if kwActive kws then
      (splitKeywords kws).all (fun kw =>
        likeMatch (likePat kw) r.keywords ||
        likeMatch (likePat kw) r.summary ||
        likeMatch (likePat kw) r.filename)
    else true)

/-- The per-keyword satisfaction relation exactly as the specification
words it: each keyword must occur literally (case-sensitively) as a
substring of the keywords field, the summary, or the filename. -/
def specKwSubstring (r : FileRecord) (ks : List Str) : Bool :=
  ks.all (fun kw =>
    containsSub r.keywords kw || containsSub r.summary kw ||
    containsSub r.filename kw)

/-- Splitting a POSIX path on `/`, as `path.split('/')` inside
`posixpath.normpath`. -/
def splitSlash (s : Str) : List Str := splitOnChar '/' s

/-- One step of `posixpath.normpath`'s component loop: empty and `.`
components vanish; `..` is kept when the path is relative and nothing
precedes it (or a kept `..` precedes it), pops the previous component
when one exists, and is dropped at the root of an absolute path. -/
def normStep (isAbs : Bool) (acc : List Str) (comp : Str) : List Str :=
  if comp.isEmpty || comp = ['.'] then acc
  else if comp = ['.', '.'] then
    if (!isAbs && acc.isEmpty) || acc.getLast? = some ['.', '.'] then acc ++ [comp]
    else if acc.isEmpty then acc
    else acc.dropLast
  else acc ++ [comp]

/-- Rebuild a path from components with `/` separators, as
`'/'.join(comps)`. -/
def joinComps : List Str → Str
  | [] => []
  | [c] => c
  | c :: cs => c ++ '/' :: joinComps cs

/-- The number of leading slashes `posixpath.normpath` preserves (one,
except for the POSIX special case of exactly two). -/
def numSlashes (p : Str) : Nat :=
  if pyStartswith p ['/', '/', '/'] then 1
  else if pyStartswith p ['/', '/'] then 2
  else if pyStartswith p ['/'] then 1
  else 0

/-- Reassembly of the normalized path from its leading slashes and kept
components (an empty outcome becomes `.`). -/
def normRebuild (slashes : Nat) (comps : List Str) : Str :=
  if (List.replicate slashes '/' ++ joinComps comps).isEmpty then ['.']
  else List.replicate slashes '/' ++ joinComps comps

/-- `posixpath.normpath`: collapse separators and `.`, resolve `..`
lexically, preserving the POSIX special case of exactly two leading
slashes. -/
def pyNormpath (p : Str) : Str :=
  if p.isEmpty then ['.']
  else
    normRebuild (numSlashes p)
      ((splitSlash p).foldl (normStep (numSlashes p > 0)) [])

/-- `posixpath.join` for two arguments: an absolute second argument
replaces the first, otherwise a single separator is inserted unless one
is already present. -/
def pyJoin (a b : Str) : Str :=
  if pyStartswith b ['/'] then b
  else if a.isEmpty || a.getLast? = some '/' then a ++ b
  else a ++ ['/'] ++ b

/-- `posixpath.abspath` relative to a working directory: make the path
absolute, then normalize. -/
def pyAbspath (cwd p : Str) : Str :=
  if pyStartswith p ['/'] then pyNormpath p else pyNormpath (pyJoin cwd p)

/-- An acceptable path component of a canonical directory path: non-empty,
not a dot component, and free of separators. -/
def isCleanComp (c : Str) : Bool :=
  !c.isEmpty && c ≠ ['.'] && c ≠ ['.', '.'] && c.all (fun ch => ch != '/')

/-- The absolute path with the given components. -/
def mkAbs (cs : List Str) : Str := '/' :: joinComps cs

/-- The components `normpath` keeps verbatim: non-empty and not `.`. -/
def keepComp (c : Str) : Bool := !c.isEmpty && (c != ['.'])

/-- The surviving components of a dotdot-free relative path. -/
def keepComps (fn : Str) : List Str := (splitSlash fn).filter keepComp

/-- Path check of the `/download/<path:file_path>` route
(`app.py:324-335`): join the request path onto the canonical archive
root, canonicalize, and require the canonical root plus a separator as
prefix; a failure is a 403 issued before any filesystem access. -/
def download_file_path_ok (cwd rootCfg rel : Str) : Bool :=
  let rootAbs := pyAbspath cwd rootCfg
  let safe := pyAbspath cwd (pyJoin rootAbs rel)
  pyStartswith safe (rootAbs ++ ['/'])

/-- Path check of the `/thumbnail/<path:file_path>` route
(`app.py:1145-1153`), identical in substance to the download check. -/
def serve_thumbnail_path_ok (cwd rootCfg rel : Str) : Bool :=
  let indexedRoot := pyAbspath cwd rootCfg
  let safeOriginal := pyAbspath cwd (pyJoin indexedRoot rel)
  pyStartswith safeOriginal (indexedRoot ++ ['/'])

/-- Path check of the `/browse/<path:sub_path>` route (`app.py:764-771`):
unlike the other two routes the canonical path is only required to start
with the canonical root string, with no separator appended. -/
def browse_path_ok (cwd rootCfg rel : Str) : Bool :=
  let baseDir := pyAbspath cwd rootCfg
  let requested := pyAbspath cwd (pyJoin baseDir rel)
  pyStartswith requested baseDir

/-- HTTP-level outcomes of the backup/restore handlers. -/
inductive HttpOutcome where
  | http400
  | http403
  | http404
  | ok
deriving Repr, DecidableEq

/-- `shutil.copy2(src, dst)` on a filesystem keyed by canonical paths:
the destination now holds the source's content (byte- and
metadata-preserving). -/
def copyFile {α : Type} (cwd : Str) (fs : Str → Option α) (src dst : Str) :
    Str → Option α :=
  fun p => if p = pyAbspath cwd dst then fs (pyAbspath cwd src) else fs p

/-- The filename validation at the top of `restore_backup`
(`app.py:409`): reject anything containing `..`, starting with `/`, or
not ending in `.db`. -/
def restoreNameOk (fn : Str) : Bool :=
  !containsSub fn ['.', '.'] && !pyStartswith fn ['/'] &&
    pyEndswith fn ('.' :: ['d', 'b'])

/-- `restore_backup` (`app.py:402-442`): validate the filename (400),
require the joined path to stay inside the backup directory (403),
require the backup file to exist (404), then overwrite the live database
with a metadata-preserving copy. -/
def restore_backup {α : Type} (cwd bdir dbPath : Str) (fs : Str → Option α)
    (fn : Str) : HttpOutcome × (Str → Option α) :=
  if !restoreNameOk fn then (HttpOutcome.http400, fs)
  else
    let bfp := pyJoin bdir fn
    if !pyStartswith (pyAbspath cwd bfp) (pyAbspath cwd bdir) then
      (HttpOutcome.http403, fs)
    else if (fs (pyAbspath cwd bfp)).isNone then (HttpOutcome.http404, fs)
    else (HttpOutcome.ok, copyFile cwd fs bfp dbPath)

/-- The backup filename `f"file_index_{timestamp}.db"` generated by
`create_backup`. -/
def backupName (ts : Str) : Str :=
  ('f' :: ['i', 'l', 'e', '_', 'i', 'n', 'd', 'e', 'x', '_']) ++ ts ++
    ('.' :: ['d', 'b'])

/-- `create_backup` (`app.py:223-242`): when the live database exists,
copy it (metadata preserved) to the timestamped name inside the backup
directory and return that path. -/
def create_backup {α : Type} (cwd dbPath bdir ts : Str) (fs : Str → Option α) :
    Option Str × (Str → Option α) :=
  if (fs (pyAbspath cwd dbPath)).isNone then (none, fs)
  else
    let backupPath := pyJoin bdir (backupName ts)
    (some backupPath, copyFile cwd fs dbPath backupPath)

/-- The commit-backup flag computed in `get_commit_details`
(`app.py:662-673`): glob the backup directory for the pattern
`commit_{short_hash}.db` (no wildcard) and report whether anything
matched.  `backupFiles` lists the names present in the backup
directory. -/
def has_db_backup (backupFiles : List Str) (shortHash : Str) : Bool :=
  backupFiles.any (fun nm =>
    globMatch (('c' :: ['o', 'm', 'm', 'i', 't', '_']) ++ shortHash ++
      ('.' :: ['d', 'b'])) nm)

/-- The code-backup flag, from the pattern `commit_{short_hash}.zip`. -/
def has_zip_backup (backupFiles : List Str) (shortHash : Str) : Bool :=
  backupFiles.any (fun nm =>
    globMatch (('c' :: ['o', 'm', 'm', 'i', 't', '_']) ++ shortHash ++
      ('.' :: ['z', 'i', 'p'])) nm)

/-- A filename embeds a commit hash when the hash occurs in it as a
substring (the specification's reading of the artifact naming
convention). -/
def embedsHash (nm h : Str) : Bool := containsSub nm h

/-- The floor offset `log_min = 1` added to every count before taking
the logarithm in `get_top_keywords`. -/
noncomputable def logOffset : ℝ := 1

/-- The clamped logarithmic range computed by `get_top_keywords`
(`app.py:204-207`): `log(top + 1) - log(bottom + 1)` when more than one
keyword is present and the bottom count is positive, `1` otherwise, and
in every case at least `1`. -/
noncomputable def logRangeOf (tk : List (Str × ℕ)) : ℝ :=
  let logMax : ℝ :=
    match tk.head? with
    | some p => Real.log ((p.2 : ℝ) + logOffset)
    | none => 1
  let lastCount : ℕ := ((tk.getLast?).map (fun p => p.2)).getD 0
  let lr : ℝ :=
    if 1 < tk.length ∧ 0 < lastCount then
      logMax - Real.log ((lastCount : ℝ) + logOffset)
    else 1
  max lr 1

/-- The per-keyword weight computation inside the loop
(`app.py:211-215`): the logarithmic formula when the range is positive,
the constant default `2` otherwise. -/
noncomputable def scaleEntry (count : ℕ) (logRange : ℝ) : ℝ :=
  if 0 < logRange then
    1 + 3 * (Real.log ((count : ℝ) + logOffset) - logOffset) / logRange
  else 2

/-- The scaling pass of `get_top_keywords` (`app.py:202-221`): an empty
count list yields an empty result; otherwise each `(keyword, count)`
pair becomes `(keyword, count, font_scale)` with the shared clamped
range. -/
noncomputable def scale_keywords (tk : List (Str × ℕ)) :
    List (Str × ℕ × ℝ) :=
  if tk.isEmpty then []
  else tk.map (fun p => (p.1, p.2, scaleEntry p.2 (logRangeOf tk)))

/-! Theorems.  Helper lemmas come first, then one theorem per claim
(with a witness or counterexample where required). -/

/-- C6: with every argument absent or empty, `search_database` assembles
no SQL condition and returns the empty list for every database state,
without executing a query. -/
theorem search_zero_filters_empty :
    ∀ db : List FileRecord,
      build_conditions [] [] [] [] = [] ∧ search_database db [] [] [] [] = [] := by
  intro db
  constructor
  · rfl
  · rfl

/-- C10: if some truthy element of the years list fails to parse as an
integer, the whole year filter contributes no condition and the search
behaves as if no years had been supplied, the other filters untouched. -/
theorem invalid_year_drops_filter (db : List FileRecord) (f : Str)
    (years ts : List Str) (kws : Str)
    (hy : ∃ y ∈ years, y.isEmpty = false ∧ pyInt y = none) :
    yearConds years = [] ∧
      search_database db f years ts kws = search_database db f [] ts kws := by
  obtain ⟨y, hmem, hne, hfail⟩ := hy
  have hne' : years.isEmpty = false := by
    cases years with
    | nil => cases hmem
    | cons a l => rfl
  have htr : y ∈ years.filter (fun y => !y.isEmpty) := by
    rw [List.mem_filter]
    exact ⟨hmem, by simp [hne]⟩
  have hall : (years.filter (fun y => !y.isEmpty)).all
      (fun y => (pyInt y).isSome) = false := by
    rw [List.all_eq_false]
    exact ⟨y, htr, by simp [hfail]⟩
  have hyc : yearConds years = [] := by
    simp [yearConds, hne', hall]
  refine ⟨hyc, ?_⟩
  have h0 : yearConds ([] : List Str) = [] := rfl
  have hb : build_conditions f years ts kws = build_conditions f [] ts kws := by
    simp only [build_conditions, hyc, h0]
  unfold search_database
  rw [hb]

/-- Closed instance for `invalid_year_drops_filter`: the year list
`["banana"]` fails integer parsing, so only the filename filter applies. -/
theorem invalid_year_drops_filter_witness :
    (∃ y ∈ ["banana".data], y.isEmpty = false ∧ pyInt y = none) ∧
      (yearConds ["banana".data] = [] ∧
        search_database [] ['a'] ["banana".data] [] [] =
          search_database [] ['a'] [] [] []) :=
  ⟨by decide, invalid_year_drops_filter [] ['a'] ["banana".data] [] [] (by decide)⟩

/-- The clamped logarithmic range is always at least one. -/
theorem one_le_logRangeOf (tk : List (Str × ℕ)) : 1 ≤ logRangeOf tk := by
  unfold logRangeOf
  exact le_max_right _ _

/-- C8: the tag-cloud pass maps every entry through one shared clamped
range; that range is at least one (so the computation is total, with no
zero division and no logarithm of zero), and the resulting visual weight
is monotonically non-decreasing in the count, equal counts receiving
equal weights. -/
theorem tag_cloud_monotone (tk : List (Str × ℕ)) (c c' : ℕ) (h : c ≤ c') :
    scale_keywords tk =
        tk.map (fun p => (p.1, p.2, scaleEntry p.2 (logRangeOf tk))) ∧
      1 ≤ logRangeOf tk ∧
      scaleEntry c (logRangeOf tk) ≤ scaleEntry c' (logRangeOf tk) := by
  have hr1 : 1 ≤ logRangeOf tk := one_le_logRangeOf tk
  have hr0 : 0 < logRangeOf tk := lt_of_lt_of_le one_pos hr1
  refine ⟨?_, hr1, ?_⟩
  · cases tk with
    | nil => simp [scale_keywords]
    | cons a l => simp [scale_keywords]
  · have hlog : Real.log ((c : ℝ) + logOffset) ≤ Real.log ((c' : ℝ) + logOffset) := by
      apply Real.log_le_log
      · have : (0 : ℝ) < (c : ℝ) + 1 := by positivity
        simpa [logOffset] using this
      · have : (c : ℝ) ≤ (c' : ℝ) := by exact_mod_cast h
        simp [logOffset]
        linarith
    simp only [scaleEntry, if_pos hr0]
    have hdiv :
        (Real.log ((c : ℝ) + logOffset) - logOffset) / logRangeOf tk ≤
          (Real.log ((c' : ℝ) + logOffset) - logOffset) / logRangeOf tk := by
      apply div_le_div_of_nonneg_right ?_ hr0.le
      linarith
    have hdiv3 :
        3 * ((Real.log ((c : ℝ) + logOffset) - logOffset) / logRangeOf tk) ≤
          3 * ((Real.log ((c' : ℝ) + logOffset) - logOffset) / logRangeOf tk) :=
      mul_le_mul_of_nonneg_left hdiv (by norm_num)
    rw [mul_div_assoc, mul_div_assoc]
    linarith

/-- Closed instance for `tag_cloud_monotone` at counts one and ten over a
two-keyword distribution. -/
theorem tag_cloud_monotone_witness :
    (1 ≤ 10) ∧
      (scale_keywords [(['a'], 1), (['b'], 10)] =
          [(['a'], 1), (['b'], 10)].map
            (fun p => (p.1, p.2, scaleEntry p.2 (logRangeOf [(['a'], 1), (['b'], 10)]))) ∧
        1 ≤ logRangeOf [(['a'], 1), (['b'], 10)] ∧
        scaleEntry 1 (logRangeOf [(['a'], 1), (['b'], 10)]) ≤
          scaleEntry 10 (logRangeOf [(['a'], 1), (['b'], 10)])) :=
  ⟨by decide, tag_cloud_monotone [(['a'], 1), (['b'], 10)] 1 10 (by decide)⟩

/-- A successful `getLast?` returns a member of the list. -/
theorem mem_of_getLastSome {α : Type} :
    ∀ (l : List α) (x : α), l.getLast? = some x → x ∈ l := by
  intro l
  induction l with
  | nil => intro x hx; cases hx
  | cons a l ih =>
    intro x hx
    cases l with
    | nil =>
      simp [List.getLast?] at hx
      simp [hx]
    | cons b l' =>
      rw [List.getLast?_cons_cons] at hx
      exact List.mem_cons_of_mem a (ih x hx)

/-- Counterexample to C9's bounded range: with two keywords both of
count 100 the clamped range degenerates to one and the code assigns a
visual weight above 7, far outside the claimed range of roughly 1 to 4. -/
theorem tag_cloud_range_counterexample :
    logRangeOf [(['a'], 100), (['b'], 100)] = 1 ∧
      4 < scaleEntry 100 (logRangeOf [(['a'], 100), (['b'], 100)]) := by
  have hrange : logRangeOf [(['a'], 100), (['b'], 100)] = 1 := by
    simp [logRangeOf, List.getLast?, logOffset]
  refine ⟨hrange, ?_⟩
  rw [hrange]
  have hexp : Real.exp 2 < 101 := by
    have h1 : Real.exp 1 < 2.7182818286 := Real.exp_one_lt_d9
    have h0 : (0 : ℝ) < Real.exp 1 := Real.exp_pos 1
    have h2 : Real.exp 2 = Real.exp 1 * Real.exp 1 := by
      rw [← Real.exp_add]; norm_num
    nlinarith
  have hlog : (2 : ℝ) < Real.log 101 :=
    (Real.lt_log_iff_exp_lt (by norm_num)).mpr hexp
  have h100 : ((100 : ℕ) : ℝ) + logOffset = 101 := by
    norm_num [logOffset]
  have hval : scaleEntry 100 1 = 1 + 3 * (Real.log 101 - logOffset) / 1 := by
    simp only [scaleEntry]
    rw [if_pos (zero_lt_one : (0 : ℝ) < 1), h100]
  rw [hval, div_one]
  simp only [logOffset]
  linarith

/-- C9 (amended): the scaling maps count `c` through the formula
`1 + 3 * (log (c + 1) - 1) / log_range`; the floor offset keeps the
logarithm's argument positive, a distribution with a single distinct
count gets the clamped minimum span of exactly one, and the span is
always at least one — but the resulting weights are not confined to the
range one to four. -/
theorem tag_cloud_scaling_amended (tk : List (Str × ℕ)) (m : ℕ)
    (h : ∀ p ∈ tk, p.2 = m) :
    logRangeOf tk = 1 ∧
      (∀ tk' : List (Str × ℕ), 1 ≤ logRangeOf tk') ∧
      (∀ (c : ℕ) (r : ℝ), 0 < r →
        scaleEntry c r = 1 + 3 * (Real.log ((c : ℝ) + 1) - 1) / r) ∧
      (∀ c : ℕ, (0 : ℝ) < (c : ℝ) + 1) := by
  refine ⟨?_, fun tk' => one_le_logRangeOf tk', ?_, fun c => by positivity⟩
  · cases tk with
    | nil => simp [logRangeOf]
    | cons a l =>
      have ha : a.2 = m := h a (List.mem_cons_self a l)
      cases hlast : (a :: l).getLast? with
      | none => simp [List.getLast?_eq_none_iff] at hlast
      | some q =>
        have hq : q.2 = m := h q (mem_of_getLastSome _ _ hlast)
        have hl : ((a :: l).getLast?).map (fun p => p.2) = some m := by
          rw [hlast]
          simp [hq]
        simp only [logRangeOf, List.head?_cons, hl, Option.getD_some, ha]
        split
        · simp
        · simp
  · intro c r hr
    simp [scaleEntry, if_pos hr, logOffset]

/-- Closed instance for `tag_cloud_scaling_amended` on a distribution
whose counts are all five. -/
theorem tag_cloud_scaling_amended_witness :
    (∀ p ∈ [(['a'], 5), (['b'], 5)], p.2 = 5) ∧
      (logRangeOf [(['a'], 5), (['b'], 5)] = 1 ∧
        (∀ tk' : List (Str × ℕ), 1 ≤ logRangeOf tk') ∧
        (∀ (c : ℕ) (r : ℝ), 0 < r →
          scaleEntry c r = 1 + 3 * (Real.log ((c : ℝ) + 1) - 1) / r) ∧
        (∀ c : ℕ, (0 : ℝ) < (c : ℝ) + 1)) :=
  ⟨by decide, tag_cloud_scaling_amended [(['a'], 5), (['b'], 5)] 5 (by decide)⟩

/-- Boolean equality of characters is symmetric. -/
theorem beqComm (a b : Char) : (a == b) = (b == a) := by
  by_cases h : a = b
  · subst h; rfl
  · have h' : ¬ b = a := fun hh => h hh.symm
    simp [h, h']

/-- Every string starts with the empty string. -/
theorem pyStartswith_nil (s : Str) : pyStartswith s [] = true := by
  cases s <;> rfl

/-- Pointwise equal predicates give equal `all` results. -/
theorem allCongr {α : Type} {l : List α} {p q : α → Bool}
    (h : ∀ x ∈ l, p x = q x) : l.all p = l.all q := by
  induction l with
  | nil => rfl
  | cons a l ih =>
    simp only [List.all_cons]
    rw [h a (List.mem_cons_self a l), ih (fun x hx => h x (List.mem_cons_of_mem a hx))]

/-- A wildcard-free `LIKE` pattern followed by `%` matches exactly the
strings that start, ASCII-case-insensitively, with the pattern. -/
theorem likeMatch_append_percent (p : Str) (hp : noWild p = true) :
    ∀ t : Str, likeMatch (p ++ ['%']) t = pyStartswith (t.map lowerC) (p.map lowerC) := by
  induction p with
  | nil =>
    intro t
    simp only [List.nil_append, List.map_nil]
    rw [pyStartswith_nil]
    simp only [likeMatch, if_true, eq_self_iff_true]
    rw [List.any_eq_true]
    exact ⟨[], by simp [List.mem_tails], rfl⟩
  | cons c p ih =>
    intro t
    have hc := List.all_eq_true.mp hp c (List.mem_cons_self c p)
    have hc1 : ¬ c = '%' := by
      intro hh
      rw [hh] at hc
      simp at hc
    have hc2 : ¬ c = '_' := by
      intro hh
      rw [hh] at hc
      simp at hc
    have hp' : noWild p = true := by
      apply List.all_eq_true.mpr
      intro x hx
      exact List.all_eq_true.mp hp x (List.mem_cons_of_mem c hx)
    cases t with
    | nil =>
      simp [likeMatch, hc1, pyStartswith]
    | cons d t' =>
      simp only [List.cons_append, likeMatch, if_neg hc1, if_neg hc2,
        List.map_cons, pyStartswith, List.append_eq]
      rw [ih hp' t', beqComm]

/-- For a wildcard-free keyword `p`, the generated `LIKE "%p%"` test is
exactly ASCII-case-insensitive substring containment. -/
theorem likeMatch_likePat (p : Str) (hp : noWild p = true) (s : Str) :
    likeMatch (likePat p) s = containsCI s p := by
  simp only [likePat, likeMatch, if_true, eq_self_iff_true]
  unfold containsCI containsSub
  rw [List.map_tails, List.any_map]
  have hfun : (fun t => likeMatch (p ++ ['%']) t) =
      ((fun u => pyStartswith u (p.map lowerC)) ∘ List.map lowerC) := by
    funext t
    exact likeMatch_append_percent p hp t
  rw [hfun]

/-- Counterexample to C5's exact-substring reading: the record whose
keywords field is `"Apple"` is returned for the keyword filter
`"apple"` (SQLite `LIKE` folds ASCII case), although no field contains
`"apple"` as a literal substring. -/
theorem keyword_filter_substring_counterexample :
    search_database
        [⟨"p1".data, "f1".data, "T".data, some 2024, "s".data, "Apple".data, 5⟩]
        [] [] [] ("apple".data) =
      [⟨"p1".data, "f1".data, "T".data, some 2024, "s".data, "Apple".data, 5⟩] ∧
    specKwSubstring
        ⟨"p1".data, "f1".data, "T".data, some 2024, "s".data, "Apple".data, 5⟩
        (splitKeywords ("apple".data)) = false := by
  constructor
  · decide
  · decide

/-- C5 (amended): the keywords argument is split on commas, trimmed and
purged of empties; a record passes the generated keyword condition iff
every remaining keyword occurs as an ASCII-case-insensitive substring of
the keywords field, the summary, or the filename (different keywords may
match in different fields).  The wildcard-free hypothesis records that
`%` and `_` inside a keyword would instead act as `LIKE` wildcards. -/
theorem keyword_filter_ci_amended (r : FileRecord) (ks : Str)
    (h : ∀ kw ∈ splitKeywords ks, noWild kw = true) :
    evalCond r (Cond.kwGroup (splitKeywords ks)) =
      (splitKeywords ks).all (fun kw =>
        containsCI r.keywords kw || containsCI r.summary kw ||
          containsCI r.filename kw) := by
  simp only [evalCond]
  apply allCongr
  intro kw hkw
  rw [likeMatch_likePat kw (h kw hkw) r.keywords,
    likeMatch_likePat kw (h kw hkw) r.summary,
    likeMatch_likePat kw (h kw hkw) r.filename]

/-- Closed instance for `keyword_filter_ci_amended`: two keywords with
mixed case, matching in different fields of one record. -/
theorem keyword_filter_ci_amended_witness :
    (∀ kw ∈ splitKeywords ("apple, PIE".data), noWild kw = true) ∧
      evalCond ⟨"p1".data, "f1".data, "T".data, some 2024,
          "hot pie".data, "Apple".data, 5⟩
          (Cond.kwGroup (splitKeywords ("apple, PIE".data))) =
        (splitKeywords ("apple, PIE".data)).all (fun kw =>
          containsCI ("Apple".data) kw || containsCI ("hot pie".data) kw ||
            containsCI ("f1".data) kw) :=
  ⟨by decide,
    keyword_filter_ci_amended
      ⟨"p1".data, "f1".data, "T".data, some 2024,
        "hot pie".data, "Apple".data, 5⟩
      ("apple, PIE".data) (by decide)⟩

/-- The filename condition group evaluates to the guarded filename
predicate. -/
theorem filenameGroup (f : Str) (r : FileRecord) :
    (filenameConds f).all (fun c => evalCond r c) =
      (if filenameActive f then likeMatch (likePat f) r.filename else true) := by
  cases hf : f.isEmpty <;> simp [filenameConds, filenameActive, hf, evalCond]

/-- The type condition group evaluates to the guarded type predicate. -/
theorem typeGroup (ts : List Str) (r : FileRecord) :
    (typeConds ts).all (fun c => evalCond r c) =
      (if typeActive ts then ts.contains r.category_type else true) := by
  cases ht : ts.isEmpty <;> simp [typeConds, typeActive, ht, evalCond]

/-- The keyword condition group evaluates to the guarded keyword
predicate. -/
theorem keywordGroup (kws : Str) (r : FileRecord) :
    (keywordConds kws).all (fun c => evalCond r c) =
      (if kwActive kws then
          (splitKeywords kws).all (fun kw =>
            likeMatch (likePat kw) r.keywords ||
            likeMatch (likePat kw) r.summary ||
            likeMatch (likePat kw) r.filename)
        else true) := by
  cases hk : kws.isEmpty
  · cases hks : (splitKeywords kws).isEmpty
    · simp [keywordConds, kwActive, hk, hks, evalCond]
    · simp [keywordConds, kwActive, hk, hks, evalCond]
  · have hkw : kws = [] := List.isEmpty_iff.mp hk
    subst hkw
    have hsplit : splitKeywords [] = [] := rfl
    simp [keywordConds, kwActive, hsplit]

/-- When all truthy year strings parse, the year condition group
evaluates to the guarded year-membership predicate. -/
theorem yearGroup (years : List Str) (r : FileRecord)
    (hy : ∀ y ∈ years, y.isEmpty = false → (pyInt y).isSome = true) :
    (yearConds years).all (fun c => evalCond r c) =
      (if yearActive years then
          (match r.category_year with
           | none => false
           | some y => (specYearSet years).contains y)
        else true) := by
  cases years with
  | nil => simp [yearConds, yearActive]
  | cons a l =>
    have hall : ((a :: l).filter (fun y => !y.isEmpty)).all
        (fun y => (pyInt y).isSome) = true := by
      apply List.all_eq_true.mpr
      intro y hy'
      have hmem := (List.mem_filter.mp hy').1
      have htr := (List.mem_filter.mp hy').2
      exact hy y hmem (by simpa using htr)
    cases htr : ((a :: l).filter (fun y => !y.isEmpty)).isEmpty
    · have hne : (a :: l).filter (fun y => !y.isEmpty) ≠ [] := by
        intro hh
        rw [hh] at htr
        simp at htr
      have hyi : ((a :: l).filter (fun y => !y.isEmpty)).filterMap pyInt ≠ [] := by
        intro hh
        obtain ⟨y, hymem⟩ := List.exists_mem_of_ne_nil _ hne
        have hsome := List.all_eq_true.mp hall y hymem
        have hnone := List.filterMap_eq_nil_iff.mp hh y hymem
        rw [hnone] at hsome
        simp at hsome
      have hyiE : (((a :: l).filter (fun y => !y.isEmpty)).filterMap pyInt).isEmpty
          = false := by
        cases hE : (((a :: l).filter (fun y => !y.isEmpty)).filterMap pyInt).isEmpty
        · rfl
        · exact absurd (List.isEmpty_iff.mp hE) hyi
      simp only [yearConds, List.isEmpty_cons, if_neg Bool.false_ne_true, hall,
        if_pos rfl, hyiE, Bool.false_eq_true, if_neg (Bool.false_ne_true),
        yearActive, htr, specYearSet]
      simp [evalCond, specYearSet]
    · have htrnil : (a :: l).filter (fun y => !y.isEmpty) = [] :=
        List.isEmpty_iff.mp htr
      have hyi : ((a :: l).filter (fun y => !y.isEmpty)).filterMap pyInt = [] := by
        rw [htrnil]
        rfl
      simp [yearConds, yearActive, hall, htrnil, hyi]

/-- The assembled condition list is empty iff no filter is active (all
truthy years parsing). -/
theorem buildConditionsEmptyIff (f : Str) (years ts : List Str) (kws : Str)
    (hy : ∀ y ∈ years, y.isEmpty = false → (pyInt y).isSome = true) :
    (build_conditions f years ts kws = []) ↔
      anyFilterActive f years ts kws = false := by
  have hf : (filenameConds f = []) ↔ filenameActive f = false := by
    cases hfe : f.isEmpty <;> simp [filenameConds, filenameActive, hfe]
  have ht : (typeConds ts = []) ↔ typeActive ts = false := by
    cases hte : ts.isEmpty <;> simp [typeConds, typeActive, hte]
  have hk : (keywordConds kws = []) ↔ kwActive kws = false := by
    cases hke : kws.isEmpty
    · cases hks : (splitKeywords kws).isEmpty
      · simp [keywordConds, kwActive, hke, hks]
      · simp [keywordConds, kwActive, hke, hks]
    · have hkw : kws = [] := List.isEmpty_iff.mp hke
      subst hkw
      simp [keywordConds, kwActive]
      rfl
  have hyc : (yearConds years = []) ↔ yearActive years = false := by
    cases years with
    | nil => simp [yearConds, yearActive]
    | cons a l =>
      have hall : ((a :: l).filter (fun y => !y.isEmpty)).all
          (fun y => (pyInt y).isSome) = true := by
        apply List.all_eq_true.mpr
        intro y hy'
        have hmem := (List.mem_filter.mp hy').1
        have htr := (List.mem_filter.mp hy').2
        exact hy y hmem (by simpa using htr)
      cases htr : ((a :: l).filter (fun y => !y.isEmpty)).isEmpty
      · have hne : (a :: l).filter (fun y => !y.isEmpty) ≠ [] := by
          intro hh
          rw [hh] at htr
          simp at htr
        have hyi : ((a :: l).filter (fun y => !y.isEmpty)).filterMap pyInt ≠ [] := by
          intro hh
          obtain ⟨y, hymem⟩ := List.exists_mem_of_ne_nil _ hne
          have hsome := List.all_eq_true.mp hall y hymem
          have hnone := List.filterMap_eq_nil_iff.mp hh y hymem
          rw [hnone] at hsome
          simp at hsome
        have hyiE : (((a :: l).filter (fun y => !y.isEmpty)).filterMap pyInt).isEmpty
            = false := by
          cases hE : (((a :: l).filter (fun y => !y.isEmpty)).filterMap pyInt).isEmpty
          · rfl
          · exact absurd (List.isEmpty_iff.mp hE) hyi
        simp [yearConds, yearActive, hall, htr, hyiE]
      · have htrnil : (a :: l).filter (fun y => !y.isEmpty) = [] :=
          List.isEmpty_iff.mp htr
        have hyi : ((a :: l).filter (fun y => !y.isEmpty)).filterMap pyInt = [] := by
          rw [htrnil]
          rfl
        simp [yearConds, yearActive, hall, htrnil, hyi]
  unfold build_conditions anyFilterActive
  rw [List.append_eq_nil, List.append_eq_nil, List.append_eq_nil]
  constructor
  · rintro ⟨⟨⟨h1, h2⟩, h3⟩, h4⟩
    simp [hf.mp h1, hyc.mp h2, ht.mp h3, hk.mp h4]
  · intro h
    have h' := h
    simp only [Bool.or_eq_false_iff] at h'
    obtain ⟨⟨⟨h1, h2⟩, h3⟩, h4⟩ := h'
    exact ⟨⟨⟨hf.mpr h1, hyc.mpr h2⟩, ht.mpr h3⟩, hk.mpr h4⟩

/-- C1: with at least one filter active and all supplied year strings
parseable, `search_database` returns exactly the rows satisfying the
conjunction of the active filters (an absent or empty filter
contributing no condition), ordered by last-modified time descending. -/
theorem search_database_conjunction
    (db : List FileRecord) (f : Str) (years ts : List Str) (kws : Str)
    (hy : ∀ y ∈ years, y.isEmpty = false → (pyInt y).isSome = true)
    (ha : anyFilterActive f years ts kws = true) :
    search_database db f years ts kws =
        sqlOrderDesc (db.filter (fun r => specMatches f years ts kws r)) ∧
      (search_database db f years ts kws).Perm
        (db.filter (fun r => specMatches f years ts kws r)) ∧
      (search_database db f years ts kws).Pairwise
        (fun a b => b.last_modified ≤ a.last_modified) := by
  have hpred : ∀ r : FileRecord,
      (build_conditions f years ts kws).all (fun c => evalCond r c) =
        specMatches f years ts kws r := by
    intro r
    unfold build_conditions specMatches
    rw [List.all_append, List.all_append, List.all_append]
    rw [filenameGroup, yearGroup years r hy, typeGroup, keywordGroup]
  have hne : build_conditions f years ts kws ≠ [] := by
    intro hh
    have hfalse := (buildConditionsEmptyIff f years ts kws hy).mp hh
    rw [ha] at hfalse
    simp at hfalse
  have hE : (build_conditions f years ts kws).isEmpty = false := by
    cases hE' : (build_conditions f years ts kws).isEmpty
    · rfl
    · exact absurd (List.isEmpty_iff.mp hE') hne
  have hmain : search_database db f years ts kws =
      sqlOrderDesc (db.filter (fun r => specMatches f years ts kws r)) := by
    unfold search_database
    simp only [hE, Bool.false_eq_true, if_false]
    unfold runQuery
    congr 1
    apply List.filter_congr
    intro r hr
    exact hpred r
  refine ⟨hmain, ?_, ?_⟩
  · rw [hmain]
    unfold sqlOrderDesc
    exact List.perm_insertionSort _ _
  · rw [hmain]
    unfold sqlOrderDesc
    haveI : IsTotal FileRecord (fun a b => b.last_modified ≤ a.last_modified) :=
      ⟨fun a b => le_total _ _⟩
    haveI : IsTrans FileRecord (fun a b => b.last_modified ≤ a.last_modified) :=
      ⟨fun a b c h1 h2 => le_trans h2 h1⟩
    exact List.sorted_insertionSort _ _

/-- Closed instance for `search_database_conjunction`: the fixture from
the testable property, filtering type `PDF` and year `2024` over three
records. -/
theorem search_database_conjunction_witness :
    (∀ y ∈ ["2024".data], y.isEmpty = false → (pyInt y).isSome = true) ∧
      anyFilterActive [] ["2024".data] ["PDF".data] [] = true ∧
      (search_database
          [⟨"/a".data, "doc1.pdf".data, "PDF".data, some 2024, "s1".data, "k1".data, 10⟩,
           ⟨"/b".data, "doc2.pdf".data, "PDF".data, some 2023, "s2".data, "k2".data, 20⟩,
           ⟨"/c".data, "img.jpg".data, "Image".data, some 2024, "s3".data, "k3".data, 30⟩]
          [] ["2024".data] ["PDF".data] [] =
          sqlOrderDesc
            (List.filter (fun r => specMatches [] ["2024".data] ["PDF".data] [] r)
              [⟨"/a".data, "doc1.pdf".data, "PDF".data, some 2024, "s1".data, "k1".data, 10⟩,
               ⟨"/b".data, "doc2.pdf".data, "PDF".data, some 2023, "s2".data, "k2".data, 20⟩,
               ⟨"/c".data, "img.jpg".data, "Image".data, some 2024, "s3".data, "k3".data, 30⟩]) ∧
        (search_database
            [⟨"/a".data, "doc1.pdf".data, "PDF".data, some 2024, "s1".data, "k1".data, 10⟩,
             ⟨"/b".data, "doc2.pdf".data, "PDF".data, some 2023, "s2".data, "k2".data, 20⟩,
             ⟨"/c".data, "img.jpg".data, "Image".data, some 2024, "s3".data, "k3".data, 30⟩]
            [] ["2024".data] ["PDF".data] []).Perm
          (List.filter (fun r => specMatches [] ["2024".data] ["PDF".data] [] r)
            [⟨"/a".data, "doc1.pdf".data, "PDF".data, some 2024, "s1".data, "k1".data, 10⟩,
             ⟨"/b".data, "doc2.pdf".data, "PDF".data, some 2023, "s2".data, "k2".data, 20⟩,
             ⟨"/c".data, "img.jpg".data, "Image".data, some 2024, "s3".data, "k3".data, 30⟩]) ∧
        (search_database
            [⟨"/a".data, "doc1.pdf".data, "PDF".data, some 2024, "s1".data, "k1".data, 10⟩,
             ⟨"/b".data, "doc2.pdf".data, "PDF".data, some 2023, "s2".data, "k2".data, 20⟩,
             ⟨"/c".data, "img.jpg".data, "Image".data, some 2024, "s3".data, "k3".data, 30⟩]
            [] ["2024".data] ["PDF".data] []).Pairwise
          (fun a b => b.last_modified ≤ a.last_modified)) :=
  ⟨by decide, by decide,
    search_database_conjunction
      [⟨"/a".data, "doc1.pdf".data, "PDF".data, some 2024, "s1".data, "k1".data, 10⟩,
       ⟨"/b".data, "doc2.pdf".data, "PDF".data, some 2023, "s2".data, "k2".data, 20⟩,
       ⟨"/c".data, "img.jpg".data, "Image".data, some 2024, "s3".data, "k3".data, 30⟩]
      [] ["2024".data] ["PDF".data] [] (by decide) (by decide)⟩

/-- A wildcard-free glob pattern matches exactly itself. -/
theorem globMatch_noWild :
    ∀ p : Str, noGlobWild p = true → ∀ s : Str, globMatch p s = true ↔ p = s := by
  intro p
  induction p with
  | nil =>
    intro _ s
    cases s with
    | nil => simp [globMatch]
    | cons d s' => simp [globMatch]
  | cons c p ih =>
    intro hw s
    have hc := List.all_eq_true.mp hw c (List.mem_cons_self c p)
    have hc1 : ¬ c = '*' := by
      intro hh
      rw [hh] at hc
      simp at hc
    have hc2 : ¬ c = '?' := by
      intro hh
      rw [hh] at hc
      simp at hc
    have hw' : noGlobWild p = true := by
      apply List.all_eq_true.mpr
      intro x hx
      exact List.all_eq_true.mp hw x (List.mem_cons_of_mem c hx)
    cases s with
    | nil => simp [globMatch, hc1]
    | cons d s' =>
      simp only [globMatch, if_neg hc1, if_neg hc2, Bool.and_eq_true,
        beq_iff_eq, List.cons.injEq]
      rw [ih hw' s']

/-- Counterexample to C7: a backup artifact whose name embeds the commit
hash with trailing characters before the extension exists, yet the exact
(wildcard-free) glob pattern used by `get_commit_details` misses it and
`has_db_backup` is false. -/
theorem commit_backup_embeds_counterexample :
    embedsHash ("commit_abc1234_old.db".data) ("abc1234".data) = true ∧
      has_db_backup [("commit_abc1234_old.db".data)] ("abc1234".data) = false := by
  constructor
  · decide
  · decide

/-- C7 (amended): for a short hash free of glob wildcards, the two flags
are computed independently by globbing, and each is true iff a file
named exactly `commit_<hash>.db` (respectively `commit_<hash>.zip`) is
present in the backup directory; names that merely embed the hash with
extra characters are not matched. -/
theorem commit_backup_flags_amended (files : List Str) (h : Str)
    (hw : noGlobWild h = true) :
    (has_db_backup files h = true ↔
        (('c' :: ['o', 'm', 'm', 'i', 't', '_']) ++ h ++ ('.' :: ['d', 'b'])) ∈ files) ∧
      (has_zip_backup files h = true ↔
        (('c' :: ['o', 'm', 'm', 'i', 't', '_']) ++ h ++ ('.' :: ['z', 'i', 'p'])) ∈ files) := by
  have hpat : ∀ suffix : Str, noGlobWild suffix = true →
      noGlobWild ((('c' :: ['o', 'm', 'm', 'i', 't', '_']) ++ h ++ suffix)) = true := by
    intro suffix hs
    unfold noGlobWild
    rw [List.all_append, List.all_append]
    have h1 : (('c' :: ['o', 'm', 'm', 'i', 't', '_']) : Str).all
        (fun c => (c != '*') && (c != '?')) = true := by decide
    have hw' : h.all (fun c => (c != '*') && (c != '?')) = true := hw
    have hs' : suffix.all (fun c => (c != '*') && (c != '?')) = true := hs
    rw [h1, hw', hs']
    rfl
  have hflag : ∀ (suffix : Str), noGlobWild suffix = true →
      ((files.any (fun nm =>
          globMatch ((('c' :: ['o', 'm', 'm', 'i', 't', '_']) ++ h ++ suffix)) nm)
        = true) ↔
        (('c' :: ['o', 'm', 'm', 'i', 't', '_']) ++ h ++ suffix) ∈ files) := by
    intro suffix hs
    rw [List.any_eq_true]
    constructor
    · rintro ⟨nm, hnm, hg⟩
      have heq := (globMatch_noWild _ (hpat suffix hs) nm).mp hg
      rw [heq]
      exact hnm
    · intro hmem
      exact ⟨_, hmem, (globMatch_noWild _ (hpat suffix hs) _).mpr rfl⟩
  exact ⟨hflag ('.' :: ['d', 'b']) (by decide), hflag ('.' :: ['z', 'i', 'p']) (by decide)⟩

/-- Closed instance for `commit_backup_flags_amended` on a directory
holding exactly the two artifacts of one commit. -/
theorem commit_backup_flags_amended_witness :
    noGlobWild ("abc1234".data) = true ∧
      ((has_db_backup ["commit_abc1234.db".data, "commit_abc1234.zip".data]
            ("abc1234".data) = true ↔
          (('c' :: ['o', 'm', 'm', 'i', 't', '_']) ++ ("abc1234".data) ++
              ('.' :: ['d', 'b'])) ∈
            ["commit_abc1234.db".data, "commit_abc1234.zip".data]) ∧
        (has_zip_backup ["commit_abc1234.db".data, "commit_abc1234.zip".data]
            ("abc1234".data) = true ↔
          (('c' :: ['o', 'm', 'm', 'i', 't', '_']) ++ ("abc1234".data) ++
              ('.' :: ['z', 'i', 'p'])) ∈
            ["commit_abc1234.db".data, "commit_abc1234.zip".data])) :=
  ⟨by decide,
    commit_backup_flags_amended
      ["commit_abc1234.db".data, "commit_abc1234.zip".data]
      ("abc1234".data) (by decide)⟩

/-! Path-normalization lemmas supporting the confinement claims. -/

/-- Splitting never yields an empty part list. -/
theorem splitOnChar_ne_nil (sep : Char) : ∀ s : Str, splitOnChar sep s ≠ [] := by
  intro s
  induction s with
  | nil => simp [splitOnChar]
  | cons c r ih =>
    by_cases hc : c = sep
    · simp [splitOnChar, hc]
    · simp only [splitOnChar, if_neg hc]
      cases hr : splitOnChar sep r with
      | nil => exact absurd hr ih
      | cons h t => simp

/-- Splitting distributes over a separator placed between two strings. -/
theorem splitOnChar_append (sep : Char) :
    ∀ a b : Str, splitOnChar sep (a ++ sep :: b) =
      splitOnChar sep a ++ splitOnChar sep b := by
  intro a
  induction a with
  | nil =>
    intro b
    simp [splitOnChar]
  | cons c a' ih =>
    intro b
    by_cases hc : c = sep
    · subst hc
      simp only [List.cons_append, splitOnChar, eq_self_iff_true, if_true,
        List.append_eq, ih b]
    · simp only [List.cons_append, splitOnChar, if_neg hc, List.append_eq, ih b]
      cases ha : splitOnChar sep a' with
      | nil => exact absurd ha (splitOnChar_ne_nil sep a')
      | cons h t => simp [ha]

/-- A string without the separator splits into itself alone. -/
theorem splitOnChar_of_no_sep (sep : Char) :
    ∀ s : Str, s.all (fun ch => ch != sep) = true → splitOnChar sep s = [s] := by
  intro s
  induction s with
  | nil => intro _; rfl
  | cons c r ih =>
    intro h
    have hc : ¬ c = sep := by
      have := List.all_eq_true.mp h c (List.mem_cons_self c r)
      simpa using this
    have hr : r.all (fun ch => ch != sep) = true := by
      apply List.all_eq_true.mpr
      intro x hx
      exact List.all_eq_true.mp h x (List.mem_cons_of_mem c hx)
    simp [splitOnChar, if_neg hc, ih hr]

/-- Every part produced by splitting occurs in the original string as a
substring. -/
theorem containsSub_of_mem_splitOnChar (sep : Char) :
    ∀ (s : Str) (p : Str), p ∈ splitOnChar sep s → containsSub s p = true := by
  have hnil : ∀ s : Str, containsSub s [] = true := by
    intro s
    unfold containsSub
    rw [List.any_eq_true]
    exact ⟨s, by simp [List.mem_tails], pyStartswith_nil s⟩
  have hcons : ∀ (c : Char) (r p : Str),
      containsSub r p = true → containsSub (c :: r) p = true := by
    intro c r p h
    unfold containsSub at h ⊢
    rw [List.any_eq_true] at h ⊢
    obtain ⟨t, ht, hp⟩ := h
    refine ⟨t, ?_, hp⟩
    rw [List.mem_tails] at ht ⊢
    exact ht.trans (List.suffix_cons c r)
  have hhead : ∀ (r : Str) (hd : Str) (tl : List Str),
      splitOnChar sep r = hd :: tl → pyStartswith r hd = true := by
    intro r
    induction r with
    | nil =>
      intro hd tl hsplit
      have h1 : ([] : Str) = hd := by
        injection hsplit
      rw [← h1]
      exact pyStartswith_nil []
    | cons d r' ih =>
      intro hd tl hsplit
      by_cases hds : d = sep
      · rw [splitOnChar, if_pos hds] at hsplit
        have h1 : ([] : Str) = hd := by
          injection hsplit
        rw [← h1]
        exact pyStartswith_nil _
      · rw [splitOnChar, if_neg hds] at hsplit
        cases hr' : splitOnChar sep r' with
        | nil => exact absurd hr' (splitOnChar_ne_nil sep r')
        | cons h' t' =>
          rw [hr'] at hsplit
          have h1 : d :: h' = hd := by
            injection hsplit
          rw [← h1]
          simp only [pyStartswith]
          rw [ih h' t' hr']
          simp
  intro s
  induction s with
  | nil =>
    intro p hp
    simp [splitOnChar] at hp
    rw [hp]
    exact hnil []
  | cons c r ih =>
    intro p hp
    by_cases hc : c = sep
    · rw [splitOnChar, if_pos hc] at hp
      rcases List.mem_cons.mp hp with h1 | h2
      · rw [h1]
        exact hnil _
      · exact hcons c r p (ih p h2)
    · rw [splitOnChar, if_neg hc] at hp
      cases hr : splitOnChar sep r with
      | nil => exact absurd hr (splitOnChar_ne_nil sep r)
      | cons h t =>
        rw [hr] at hp
        rcases List.mem_cons.mp hp with h1 | h2
        · subst h1
          unfold containsSub
          rw [List.any_eq_true]
          refine ⟨c :: r, by simp [List.mem_tails], ?_⟩
          simp only [pyStartswith]
          rw [hhead r h t hr]
          simp
        · exact hcons c r p (ih p (hr ▸ List.mem_cons_of_mem h h2))

/-- If a string nowhere contains `".."`, none of its slash-separated
components is `".."`. -/
theorem no_dotdot_comps (s : Str) (h : containsSub s ['.', '.'] = false) :
    ∀ p ∈ splitSlash s, p ≠ ['.', '.'] := by
  intro p hp hcontra
  subst hcontra
  have := containsSub_of_mem_splitOnChar '/' s _ hp
  rw [h] at this
  cases this

/-- Every string is a prefix of itself. -/
theorem pyStartswith_refl : ∀ s : Str, pyStartswith s s = true := by
  intro s
  induction s with
  | nil => rfl
  | cons c r ih => simp [pyStartswith, ih]

/-- A string starts with any of its leading segments. -/
theorem pyStartswith_append : ∀ a b : Str, pyStartswith (a ++ b) a = true := by
  intro a
  induction a with
  | nil => intro b; exact pyStartswith_nil b
  | cons c a' ih => intro b; simp [pyStartswith, ih b]

/-- Starting with a longer prefix implies starting with its first part. -/
theorem pyStartswith_mono :
    ∀ a b s : Str, pyStartswith s (a ++ b) = true → pyStartswith s a = true := by
  intro a
  induction a with
  | nil => intro b s _; exact pyStartswith_nil s
  | cons c a' ih =>
    intro b s h
    cases s with
    | nil => simp [pyStartswith] at h
    | cons d s' =>
      simp only [List.cons_append, pyStartswith, Bool.and_eq_true] at h ⊢
      exact ⟨h.1, ih b s' h.2⟩

/-- Joining distributes over appending non-empty component lists. -/
theorem joinComps_append :
    ∀ cs g : List Str, cs ≠ [] → g ≠ [] →
      joinComps (cs ++ g) = joinComps cs ++ '/' :: joinComps g := by
  intro cs
  induction cs with
  | nil => intro g h _; exact absurd rfl h
  | cons c cs' ih =>
    intro g _ hg
    cases cs' with
    | nil =>
      cases g with
      | nil => exact absurd rfl hg
      | cons d g' => simp [joinComps]
    | cons c2 cs'' =>
      have hne : (c2 :: cs'') ++ g ≠ [] := by simp
      have step : joinComps ((c :: c2 :: cs'') ++ g) =
          c ++ '/' :: joinComps ((c2 :: cs'') ++ g) := by
        cases hcg : (c2 :: cs'') ++ g with
        | nil => exact absurd hcg hne
        | cons x xs => rw [← hcg]; rfl
      rw [step, ih g (by simp) hg]
      simp [joinComps]

/-- Splitting a join of slash-free components recovers the components. -/
theorem splitSlash_joinComps :
    ∀ cs : List Str, cs.all isCleanComp = true → cs ≠ [] →
      splitSlash (joinComps cs) = cs := by
  intro cs
  induction cs with
  | nil => intro _ h; exact absurd rfl h
  | cons c cs' ih =>
    intro hclean _
    have hc : isCleanComp c = true :=
      List.all_eq_true.mp hclean c (List.mem_cons_self c cs')
    have hcslash : c.all (fun ch => ch != '/') = true := by
      unfold isCleanComp at hc
      simp only [Bool.and_eq_true] at hc
      exact hc.2
    have hclean' : cs'.all isCleanComp = true := by
      apply List.all_eq_true.mpr
      intro x hx
      exact List.all_eq_true.mp hclean x (List.mem_cons_of_mem c hx)
    cases cs' with
    | nil =>
      show splitSlash (joinComps [c]) = [c]
      unfold joinComps splitSlash
      exact splitOnChar_of_no_sep '/' c hcslash
    | cons c2 cs'' =>
      have hj : joinComps (c :: c2 :: cs'') = c ++ '/' :: joinComps (c2 :: cs'') := rfl
      unfold splitSlash
      rw [hj, splitOnChar_append '/' c (joinComps (c2 :: cs''))]
      rw [splitOnChar_of_no_sep '/' c hcslash]
      have := ih hclean' (by simp)
      unfold splitSlash at this
      rw [this]
      rfl

/-- The join of clean components never ends in a slash, whatever single
character is prepended. -/
theorem joinComps_getLast :
    ∀ cs : List Str, cs.all isCleanComp = true → cs ≠ [] →
      ∀ c0 : Char, ¬ (c0 :: joinComps cs).getLast? = some '/' := by
  intro cs
  induction cs with
  | nil => intro _ h; exact absurd rfl h
  | cons c cs' ih =>
    intro hclean _ c0
    have hc : isCleanComp c = true :=
      List.all_eq_true.mp hclean c (List.mem_cons_self c cs')
    have hcne : c ≠ [] := by
      unfold isCleanComp at hc
      simp only [Bool.and_eq_true] at hc
      have := hc.1.1.1
      intro hh
      rw [hh] at this
      simp at this
    have hcslash : c.all (fun ch => ch != '/') = true := by
      unfold isCleanComp at hc
      simp only [Bool.and_eq_true] at hc
      exact hc.2
    have hclean' : cs'.all isCleanComp = true := by
      apply List.all_eq_true.mpr
      intro x hx
      exact List.all_eq_true.mp hclean x (List.mem_cons_of_mem c hx)
    cases cs' with
    | nil =>
      show ¬ (c0 :: joinComps [c]).getLast? = some '/'
      have hj : joinComps [c] = c := rfl
      rw [hj]
      have hsplit : (c0 :: c) = [c0] ++ c := rfl
      rw [hsplit, List.getLast?_append_of_ne_nil [c0] hcne]
      intro hh
      have hmem := mem_of_getLastSome c '/' hh
      have := List.all_eq_true.mp hcslash '/' hmem
      simp at this
    | cons c2 cs'' =>
      have hj : joinComps (c :: c2 :: cs'') = c ++ '/' :: joinComps (c2 :: cs'') := rfl
      rw [hj]
      have hsplit : (c0 :: (c ++ '/' :: joinComps (c2 :: cs''))) =
          (c0 :: c) ++ ('/' :: joinComps (c2 :: cs'')) := by simp
      rw [hsplit, List.getLast?_append_of_ne_nil (c0 :: c) (by simp)]
      exact ih hclean' (by simp) '/'

/-- Folding the normalization step over clean components appends them
verbatim. -/
theorem foldl_normStep_clean :
    ∀ (cs : List Str) (acc : List Str), cs.all isCleanComp = true →
      cs.foldl (normStep true) acc = acc ++ cs := by
  intro cs
  induction cs with
  | nil => intro acc _; simp
  | cons c cs' ih =>
    intro acc hclean
    have hc : isCleanComp c = true :=
      List.all_eq_true.mp hclean c (List.mem_cons_self c cs')
    unfold isCleanComp at hc
    simp only [Bool.and_eq_true, Bool.not_eq_true', decide_eq_true_eq] at hc
    obtain ⟨⟨⟨hc1, hc2⟩, hc3⟩, _⟩ := hc
    have hclean' : cs'.all isCleanComp = true := by
      apply List.all_eq_true.mpr
      intro x hx
      exact List.all_eq_true.mp hclean x (List.mem_cons_of_mem c hx)
    have hg1 : ¬ ((c.isEmpty || decide (c = ['.'])) = true) := by
      simp [hc1, hc2]
    have hstep : normStep true acc c = acc ++ [c] := by
      unfold normStep
      rw [if_neg hg1, if_neg hc3]
    rw [List.foldl_cons, hstep, ih (acc ++ [c]) hclean']
    simp

/-- Folding the normalization step over dotdot-free components appends
exactly the kept ones. -/
theorem foldl_normStep_keep :
    ∀ (l : List Str) (acc : List Str), (∀ p ∈ l, p ≠ ['.', '.']) →
      l.foldl (normStep true) acc = acc ++ l.filter keepComp := by
  intro l
  induction l with
  | nil => intro acc _; simp
  | cons c l' ih =>
    intro acc hdd
    have hdd' : ∀ p ∈ l', p ≠ ['.', '.'] :=
      fun p hp => hdd p (List.mem_cons_of_mem c hp)
    have hcdd : c ≠ ['.', '.'] := hdd c (List.mem_cons_self c l')
    have hguardB : ((c.isEmpty || decide (c = ['.'])) = true) ↔
        (c.isEmpty = true ∨ c = ['.']) := by
      simp
    by_cases hguard : c.isEmpty = true ∨ c = ['.']
    · have hstep : normStep true acc c = acc := by
        unfold normStep
        rw [if_pos (hguardB.mpr hguard)]
      have hkeep : keepComp c = false := by
        unfold keepComp
        rcases hguard with h1 | h2
        · simp [h1]
        · simp [h2]
      rw [List.foldl_cons, hstep, ih acc hdd']
      simp [List.filter_cons, hkeep]
    · have hstep : normStep true acc c = acc ++ [c] := by
        unfold normStep
        rw [if_neg (fun hh => hguard (hguardB.mp hh)), if_neg hcdd]
      have hkeep : keepComp c = true := by
        unfold keepComp
        push_neg at hguard
        simp [hguard.1, hguard.2]
      rw [List.foldl_cons, hstep, ih (acc ++ [c]) hdd']
      simp [List.filter_cons, hkeep]

/-- The join of clean components starts with a non-slash character. -/
theorem joinComps_head :
    ∀ cs : List Str, cs.all isCleanComp = true → cs ≠ [] →
      ∃ (ch : Char) (J : Str), joinComps cs = ch :: J ∧ (ch == '/') = false := by
  intro cs
  induction cs with
  | nil => intro _ h; exact absurd rfl h
  | cons c cs' _ =>
    intro hclean _
    have hc : isCleanComp c = true :=
      List.all_eq_true.mp hclean c (List.mem_cons_self c cs')
    unfold isCleanComp at hc
    simp only [Bool.and_eq_true, Bool.not_eq_true'] at hc
    obtain ⟨⟨⟨hc1, _⟩, _⟩, hc4⟩ := hc
    cases hcc : c with
    | nil =>
      rw [hcc] at hc1
      cases hc1
    | cons ch c'' =>
      rw [hcc] at hc4
      have hch : (ch == '/') = false := by
        have := List.all_eq_true.mp hc4 ch (List.mem_cons_self ch c'')
        simpa using this
      cases cs' with
      | nil => exact ⟨ch, c'', rfl, hch⟩
      | cons c2 cs'' =>
        exact ⟨ch, c'' ++ '/' :: joinComps (c2 :: cs''), rfl, hch⟩

/-- Leading-slash counting for a path of the form `/x...` with `x` not a
slash. -/
theorem numSlashes_single (ch : Char) (J : Str) (hch : (ch == '/') = false) :
    numSlashes ('/' :: ch :: J) = 1 := by
  unfold numSlashes
  have h3 : pyStartswith ('/' :: ch :: J) ['/', '/', '/'] = false := by
    simp [pyStartswith, hch]
  have h2 : pyStartswith ('/' :: ch :: J) ['/', '/'] = false := by
    simp [pyStartswith, hch]
  have h1 : pyStartswith ('/' :: ch :: J) ['/'] = true := by
    simp [pyStartswith]
  rw [h3, h2, h1]
  simp

/-- The normalization fold of `[] :: cs ++ rest` for clean `cs` and
dotdot-free `rest`. -/
theorem foldl_normStep_full (cs : List Str) (rest : List Str)
    (hclean : cs.all isCleanComp = true)
    (hdd : ∀ p ∈ rest, p ≠ ['.', '.']) :
    (([] : Str) :: (cs ++ rest)).foldl (normStep true) [] =
      cs ++ rest.filter keepComp := by
  rw [List.foldl_cons]
  have hstep : normStep true [] ([] : Str) = [] := by decide
  rw [hstep, List.foldl_append, foldl_normStep_clean cs [] hclean]
  simpa using foldl_normStep_keep rest cs hdd

/-- `normpath` fixes an absolute path built from clean components. -/
theorem pyNormpath_mkAbs (cs : List Str)
    (hclean : cs.all isCleanComp = true) (hcs : cs ≠ []) :
    pyNormpath (mkAbs cs) = mkAbs cs := by
  obtain ⟨ch, J, hJ, hch⟩ := joinComps_head cs hclean hcs
  unfold pyNormpath mkAbs
  rw [hJ]
  rw [if_neg (by simp : ¬ ('/' :: ch :: J).isEmpty = true)]
  rw [numSlashes_single ch J hch]
  have hsplit : splitSlash ('/' :: ch :: J) = ([] : Str) :: splitSlash (ch :: J) := rfl
  have hsplit2 : splitSlash (ch :: J) = cs := by
    have := splitSlash_joinComps cs hclean hcs
    rw [hJ] at this
    exact this
  rw [hsplit, hsplit2]
  have hone : decide (1 > 0) = true := by decide
  have hfold : (([] : Str) :: cs).foldl (normStep (decide (1 > 0))) [] = cs := by
    rw [hone]
    have := foldl_normStep_full cs [] hclean (by intro p hp; cases hp)
    simpa using this
  rw [hfold]
  unfold normRebuild
  rw [hJ]
  simp

/-- `abspath` fixes an absolute path built from clean components. -/
theorem pyAbspath_mkAbs (cwd : Str) (cs : List Str)
    (hclean : cs.all isCleanComp = true) (hcs : cs ≠ []) :
    pyAbspath cwd (mkAbs cs) = mkAbs cs := by
  unfold pyAbspath
  have habs : pyStartswith (mkAbs cs) ['/'] = true := by
    unfold mkAbs
    simp [pyStartswith, pyStartswith_nil]
  rw [if_pos habs]
  exact pyNormpath_mkAbs cs hclean hcs

/-- Joining a traversal-free, relative filename onto a clean absolute
directory and canonicalizing lands on that directory extended by the
filename's surviving components — in particular inside the directory. -/
theorem abspath_join_clean (cwd : Str) (cs : List Str) (fn : Str)
    (hclean : cs.all isCleanComp = true) (hcs : cs ≠ [])
    (hdd : containsSub fn ['.', '.'] = false)
    (habs : pyStartswith fn ['/'] = false) :
    pyAbspath cwd (pyJoin (mkAbs cs) fn) = mkAbs (cs ++ keepComps fn) ∧
      pyStartswith (pyAbspath cwd (pyJoin (mkAbs cs) fn)) (mkAbs cs) = true := by
  obtain ⟨ch, J, hJ, hch⟩ := joinComps_head cs hclean hcs
  have hjoin : pyJoin (mkAbs cs) fn = mkAbs cs ++ '/' :: fn := by
    unfold pyJoin
    rw [if_neg (by rw [habs]; exact Bool.false_ne_true)]
    rw [if_neg ?hg]
    · simp
    case hg =>
      intro hg
      have hg2 : ((mkAbs cs).isEmpty ||
          decide ((mkAbs cs).getLast? = some '/')) = true := hg
      rcases Bool.or_eq_true_iff.mp hg2 with h1 | h2
      · unfold mkAbs at h1
        simp at h1
      · have := of_decide_eq_true h2
        exact joinComps_getLast cs hclean hcs '/' this
  have hshape : mkAbs cs ++ '/' :: fn = '/' :: ch :: (J ++ '/' :: fn) := by
    unfold mkAbs
    rw [hJ]
    rfl
  have hstart : pyStartswith (mkAbs cs ++ '/' :: fn) ['/'] = true := by
    rw [hshape]
    simp [pyStartswith]
  have hnorm : pyNormpath (mkAbs cs ++ '/' :: fn) = mkAbs (cs ++ keepComps fn) := by
    rw [hshape]
    unfold pyNormpath
    rw [if_neg (by simp : ¬ ('/' :: ch :: (J ++ '/' :: fn)).isEmpty = true)]
    rw [numSlashes_single ch (J ++ '/' :: fn) hch]
    have hsplit : splitSlash ('/' :: ch :: (J ++ '/' :: fn)) =
        ([] : Str) :: splitSlash (ch :: (J ++ '/' :: fn)) := rfl
    have hsplit2 : splitSlash (ch :: (J ++ '/' :: fn)) = cs ++ splitSlash fn := by
      have hc : (ch :: (J ++ '/' :: fn)) = (ch :: J) ++ '/' :: fn := by simp
      rw [hc]
      unfold splitSlash
      rw [splitOnChar_append '/' (ch :: J) fn]
      have hsp : splitOnChar '/' (ch :: J) = cs := by
        have := splitSlash_joinComps cs hclean hcs
        rw [hJ] at this
        exact this
      rw [hsp]
    rw [hsplit, hsplit2]
    have hone : decide (1 > 0) = true := by decide
    have hfold : (([] : Str) :: (cs ++ splitSlash fn)).foldl
        (normStep (decide (1 > 0))) [] = cs ++ keepComps fn := by
      rw [hone]
      exact foldl_normStep_full cs (splitSlash fn) hclean (no_dotdot_comps fn hdd)
    rw [hfold]
    unfold normRebuild mkAbs
    simp
  have habspath : pyAbspath cwd (pyJoin (mkAbs cs) fn) = mkAbs (cs ++ keepComps fn) := by
    rw [hjoin]
    unfold pyAbspath
    rw [if_pos hstart]
    exact hnorm
  refine ⟨habspath, ?_⟩
  rw [habspath]
  by_cases hk : keepComps fn = []
  · rw [hk, List.append_nil]
    exact pyStartswith_refl _
  · unfold mkAbs
    rw [joinComps_append cs (keepComps fn) hcs hk]
    simp only [pyStartswith]
    rw [pyStartswith_append (joinComps cs) ('/' :: joinComps (keepComps fn))]
    simp

/-- Counterexample to C2: with archive root `/ar`, the browse request
`../arx` canonicalizes to `/arx`, which does not begin with the
canonical root plus a separator, yet the browse route's check (a plain
string-prefix comparison, `app.py:769`) accepts it instead of returning
403. -/
theorem browse_prefix_counterexample :
    browse_path_ok ['/'] ("/ar".data) ("../arx".data) = true ∧
      pyStartswith
        (pyAbspath ['/'] (pyJoin (pyAbspath ['/'] ("/ar".data)) ("../arx".data)))
        ((pyAbspath ['/'] ("/ar".data)) ++ ['/']) = false := by
  constructor
  · decide
  · decide

/-- C2 (amended): the download and thumbnail routes reject (403, before
any filesystem access) exactly the requests whose canonical joined path
does not begin with the canonical root plus a separator; the browse
route instead compares against the root string alone, which also admits
the root itself and sibling paths sharing the root as a string prefix.
Any download-accepted path is browse-accepted, and any relative path
free of `..` and not absolute is accepted by browse. -/
theorem path_confinement_amended (cwd rootCfg rel : Str) (cs : List Str)
    (hb : rootCfg = mkAbs cs) (hcs : cs ≠ [])
    (hclean : cs.all isCleanComp = true) :
    serve_thumbnail_path_ok cwd rootCfg rel = download_file_path_ok cwd rootCfg rel ∧
      (download_file_path_ok cwd rootCfg rel = true ↔
        pyStartswith (pyAbspath cwd (pyJoin rootCfg rel)) (rootCfg ++ ['/']) = true) ∧
      (browse_path_ok cwd rootCfg rel = true ↔
        pyStartswith (pyAbspath cwd (pyJoin rootCfg rel)) rootCfg = true) ∧
      (download_file_path_ok cwd rootCfg rel = true →
        browse_path_ok cwd rootCfg rel = true) ∧
      (containsSub rel ['.', '.'] = false → pyStartswith rel ['/'] = false →
        browse_path_ok cwd rootCfg rel = true) := by
  have hroot : pyAbspath cwd rootCfg = rootCfg := by
    rw [hb]
    exact pyAbspath_mkAbs cwd cs hclean hcs
  have hdl : download_file_path_ok cwd rootCfg rel =
      pyStartswith (pyAbspath cwd (pyJoin rootCfg rel)) (rootCfg ++ ['/']) := by
    unfold download_file_path_ok
    rw [hroot]
  have hbr : browse_path_ok cwd rootCfg rel =
      pyStartswith (pyAbspath cwd (pyJoin rootCfg rel)) rootCfg := by
    unfold browse_path_ok
    rw [hroot]
  refine ⟨rfl, by rw [hdl], by rw [hbr], ?_, ?_⟩
  · intro h
    rw [hdl] at h
    rw [hbr]
    exact pyStartswith_mono rootCfg ['/'] _ h
  · intro hdd habs
    rw [hbr, hb]
    exact (abspath_join_clean cwd cs rel hclean hcs hdd habs).2

/-- Closed instance for `path_confinement_amended` with root `/ar` and a
benign relative path. -/
theorem path_confinement_amended_witness :
    ("/ar".data = mkAbs [['a', 'r']] ∧ ([['a', 'r']] : List Str) ≠ [] ∧
        ([['a', 'r']] : List Str).all isCleanComp = true) ∧
      (serve_thumbnail_path_ok ['/'] ("/ar".data) ("x".data) =
          download_file_path_ok ['/'] ("/ar".data) ("x".data) ∧
        (download_file_path_ok ['/'] ("/ar".data) ("x".data) = true ↔
          pyStartswith (pyAbspath ['/'] (pyJoin ("/ar".data) ("x".data)))
            (("/ar".data) ++ ['/']) = true) ∧
        (browse_path_ok ['/'] ("/ar".data) ("x".data) = true ↔
          pyStartswith (pyAbspath ['/'] (pyJoin ("/ar".data) ("x".data)))
            ("/ar".data) = true) ∧
        (download_file_path_ok ['/'] ("/ar".data) ("x".data) = true →
          browse_path_ok ['/'] ("/ar".data) ("x".data) = true) ∧
        (containsSub ("x".data) ['.', '.'] = false →
          pyStartswith ("x".data) ['/'] = false →
          browse_path_ok ['/'] ("/ar".data) ("x".data) = true)) :=
  ⟨⟨by decide, by decide, by decide⟩,
    path_confinement_amended ['/'] ("/ar".data) ("x".data) [['a', 'r']]
      (by decide) (by decide) (by decide)⟩

/-- C3: `restore_backup` returns 400 — with the filesystem untouched and
unread — for every filename containing `..`, starting with `/`, or not
ending in `.db`; every filename passing that validation resolves inside
the backup directory (so the 403 outside-directory rejection can never
fire, and no validated filename resolves outside); and a validated
filename whose backup file does not exist yields 404 with the filesystem
untouched. -/
theorem restore_backup_validation {α : Type} (cwd bdir dbPath fn : Str)
    (cs : List Str) (fs : Str → Option α)
    (hb : bdir = mkAbs cs) (hcs : cs ≠ [])
    (hclean : cs.all isCleanComp = true) :
    (restoreNameOk fn = false →
      restore_backup cwd bdir dbPath fs fn = (HttpOutcome.http400, fs)) ∧
      (restoreNameOk fn = true →
        pyStartswith (pyAbspath cwd (pyJoin bdir fn)) (pyAbspath cwd bdir) = true ∧
        (restore_backup cwd bdir dbPath fs fn).1 ≠ HttpOutcome.http403) ∧
      (restoreNameOk fn = true → fs (pyAbspath cwd (pyJoin bdir fn)) = none →
        restore_backup cwd bdir dbPath fs fn = (HttpOutcome.http404, fs)) := by
  have hbdir : pyAbspath cwd bdir = bdir := by
    rw [hb]
    exact pyAbspath_mkAbs cwd cs hclean hcs
  have hinside : restoreNameOk fn = true →
      pyStartswith (pyAbspath cwd (pyJoin bdir fn)) (pyAbspath cwd bdir) = true := by
    intro hok
    unfold restoreNameOk at hok
    simp only [Bool.and_eq_true, Bool.not_eq_true'] at hok
    obtain ⟨⟨hdd, habs⟩, _⟩ := hok
    rw [hbdir, hb]
    exact (abspath_join_clean cwd cs fn hclean hcs hdd habs).2
  refine ⟨?_, ?_, ?_⟩
  · intro hno
    unfold restore_backup
    rw [if_pos (by rw [hno]; rfl)]
  · intro hok
    refine ⟨hinside hok, ?_⟩
    unfold restore_backup
    rw [if_neg (by rw [hok]; simp)]
    have hpre := hinside hok
    rw [if_neg (by rw [hpre]; simp)]
    by_cases hex : (fs (pyAbspath cwd (pyJoin bdir fn))).isNone = true
    · rw [if_pos hex]
      simp
    · rw [if_neg hex]
      simp
  · intro hok hnone
    unfold restore_backup
    rw [if_neg (by rw [hok]; simp)]
    have hpre := hinside hok
    rw [if_neg (by rw [hpre]; simp)]
    rw [if_pos (by rw [hnone]; rfl)]

/-- Closed instance for `restore_backup_validation`: backup directory
`/bk`, an empty filesystem, and the well-formed filename
`file_index_1.db` (404 because the file is absent). -/
theorem restore_backup_validation_witness :
    ("/bk".data = mkAbs [['b', 'k']] ∧ ([['b', 'k']] : List Str) ≠ [] ∧
        ([['b', 'k']] : List Str).all isCleanComp = true) ∧
      ((restoreNameOk ("file_index_1.db".data) = false →
          restore_backup ['/'] ("/bk".data) ("/file_index.db".data)
            (fun _ => (none : Option ℕ)) ("file_index_1.db".data) =
            (HttpOutcome.http400, fun _ => (none : Option ℕ))) ∧
        (restoreNameOk ("file_index_1.db".data) = true →
          pyStartswith
              (pyAbspath ['/'] (pyJoin ("/bk".data) ("file_index_1.db".data)))
              (pyAbspath ['/'] ("/bk".data)) = true ∧
          (restore_backup ['/'] ("/bk".data) ("/file_index.db".data)
              (fun _ => (none : Option ℕ)) ("file_index_1.db".data)).1 ≠
            HttpOutcome.http403) ∧
        (restoreNameOk ("file_index_1.db".data) = true →
          (fun _ => (none : Option ℕ))
              (pyAbspath ['/'] (pyJoin ("/bk".data) ("file_index_1.db".data))) =
            none →
          restore_backup ['/'] ("/bk".data) ("/file_index.db".data)
            (fun _ => (none : Option ℕ)) ("file_index_1.db".data) =
            (HttpOutcome.http404, fun _ => (none : Option ℕ)))) :=
  ⟨⟨by decide, by decide, by decide⟩,
    restore_backup_validation ['/'] ("/bk".data) ("/file_index.db".data)
      ("file_index_1.db".data) [['b', 'k']] (fun _ => (none : Option ℕ))
      (by decide) (by decide) (by decide)⟩

/-- C4: create a backup of the live database, overwrite the live
database with arbitrary new content, then restore that backup: the
restore succeeds and the live database again holds exactly the content
it had at backup-creation time (both directions are content-preserving
copies). -/
theorem backup_restore_roundtrip {α : Type} (cwd dbPath bdir ts : Str)
    (cs : List Str) (fs : Str → Option α) (orig newContent : α)
    (hb : bdir = mkAbs cs) (hcs : cs ≠ [])
    (hclean : cs.all isCleanComp = true)
    (hfn : restoreNameOk (backupName ts) = true)
    (hdb : fs (pyAbspath cwd dbPath) = some orig)
    (hne : pyAbspath cwd (pyJoin bdir (backupName ts)) ≠ pyAbspath cwd dbPath) :
    (restore_backup cwd bdir dbPath
        (fun p => if p = pyAbspath cwd dbPath then some newContent
          else (create_backup cwd dbPath bdir ts fs).2 p)
        (backupName ts)).1 = HttpOutcome.ok ∧
      (restore_backup cwd bdir dbPath
          (fun p => if p = pyAbspath cwd dbPath then some newContent
            else (create_backup cwd dbPath bdir ts fs).2 p)
          (backupName ts)).2 (pyAbspath cwd dbPath) = some orig := by
  have h1 : (create_backup cwd dbPath bdir ts fs).2 =
      copyFile cwd fs dbPath (pyJoin bdir (backupName ts)) := by
    unfold create_backup
    rw [hdb]
    simp
  have hfs2bp :
      (fun p => if p = pyAbspath cwd dbPath then some newContent
        else (create_backup cwd dbPath bdir ts fs).2 p)
        (pyAbspath cwd (pyJoin bdir (backupName ts))) = some orig := by
    show (if pyAbspath cwd (pyJoin bdir (backupName ts)) = pyAbspath cwd dbPath
        then some newContent
        else (create_backup cwd dbPath bdir ts fs).2
          (pyAbspath cwd (pyJoin bdir (backupName ts)))) = some orig
    rw [if_neg hne, h1]
    unfold copyFile
    rw [if_pos rfl, hdb]
  have hinside :
      pyStartswith (pyAbspath cwd (pyJoin bdir (backupName ts)))
        (pyAbspath cwd bdir) = true := by
    have hok := hfn
    unfold restoreNameOk at hok
    simp only [Bool.and_eq_true, Bool.not_eq_true'] at hok
    obtain ⟨⟨hdd, habs⟩, _⟩ := hok
    have hbdir : pyAbspath cwd bdir = bdir := by
      rw [hb]
      exact pyAbspath_mkAbs cwd cs hclean hcs
    rw [hbdir, hb]
    exact (abspath_join_clean cwd cs (backupName ts) hclean hcs hdd habs).2
  have hrestore : restore_backup cwd bdir dbPath
      (fun p => if p = pyAbspath cwd dbPath then some newContent
        else (create_backup cwd dbPath bdir ts fs).2 p)
      (backupName ts) =
      (HttpOutcome.ok,
        copyFile cwd
          (fun p => if p = pyAbspath cwd dbPath then some newContent
            else (create_backup cwd dbPath bdir ts fs).2 p)
          (pyJoin bdir (backupName ts)) dbPath) := by
    unfold restore_backup
    rw [if_neg (by rw [hfn]; simp)]
    rw [if_neg (by rw [hinside]; simp)]
    rw [if_neg (by rw [hfs2bp]; simp)]
  rw [hrestore]
  refine ⟨rfl, ?_⟩
  show copyFile cwd
      (fun p => if p = pyAbspath cwd dbPath then some newContent
        else (create_backup cwd dbPath bdir ts fs).2 p)
      (pyJoin bdir (backupName ts)) dbPath (pyAbspath cwd dbPath) = some orig
  unfold copyFile
  rw [if_pos rfl]
  exact hfs2bp

/-- Closed instance for `backup_restore_roundtrip`: one-file filesystem,
database content `0` backed up, overwritten by `1`, and restored. -/
theorem backup_restore_roundtrip_witness :
    ("/bk".data = mkAbs [['b', 'k']] ∧ ([['b', 'k']] : List Str) ≠ [] ∧
        ([['b', 'k']] : List Str).all isCleanComp = true ∧
        restoreNameOk (backupName ("20240101".data)) = true ∧
        (fun p => if p = ("/file_index.db".data) then some (0 : ℕ) else none)
            (pyAbspath ['/'] ("/file_index.db".data)) = some 0 ∧
        pyAbspath ['/'] (pyJoin ("/bk".data) (backupName ("20240101".data))) ≠
          pyAbspath ['/'] ("/file_index.db".data)) ∧
      ((restore_backup ['/'] ("/bk".data) ("/file_index.db".data)
          (fun p => if p = pyAbspath ['/'] ("/file_index.db".data) then some (1 : ℕ)
            else (create_backup ['/'] ("/file_index.db".data) ("/bk".data)
              ("20240101".data)
              (fun p => if p = ("/file_index.db".data) then some (0 : ℕ)
                else none)).2 p)
          (backupName ("20240101".data))).1 = HttpOutcome.ok ∧
        (restore_backup ['/'] ("/bk".data) ("/file_index.db".data)
            (fun p => if p = pyAbspath ['/'] ("/file_index.db".data) then some (1 : ℕ)
              else (create_backup ['/'] ("/file_index.db".data) ("/bk".data)
                ("20240101".data)
                (fun p => if p = ("/file_index.db".data) then some (0 : ℕ)
                  else none)).2 p)
            (backupName ("20240101".data))).2
          (pyAbspath ['/'] ("/file_index.db".data)) = some 0) :=
  ⟨⟨by decide, by decide, by decide, by decide, by decide, by decide⟩,
    backup_restore_roundtrip ['/'] ("/file_index.db".data) ("/bk".data)
      ("20240101".data) [['b', 'k']]
      (fun p => if p = ("/file_index.db".data) then some (0 : ℕ) else none)
      0 1 (by decide) (by decide) (by decide) (by decide) (by decide) (by decide)⟩

end Denkraum
